import Mathlib

/-!
Shallow embedding of the `circularbuf` crate (src/lib.rs): a fixed-capacity
circular byte buffer.  Bytes are modelled as `Nat`, byte slices as `List Nat`,
and operations that can panic in Rust (slice-indexing out of bounds,
`copy_from_slice` length mismatch, modulo by zero) return `Option`, with
`none` standing for the panic.
-/

namespace Circularbuf

/-- The `Buffer<B>` struct of src/lib.rs, with the backing storage `B`
instantiated to a byte sequence. -/
structure Buffer where
  data : List Nat
  write_cursor : Nat
  written : Nat
deriving DecidableEq

/-- Model of `fn copy(dst: &mut [u8], src: &[u8]) -> usize` (src/lib.rs lines 269-273):
copies `min(src.len(), dst.len())` bytes of `src` into the front of `dst`,
leaving the rest of `dst` unchanged, and returns that count.  Returns the
resulting destination together with the count. -/
def copy (dst src : List Nat) : List Nat × Nat :=
  let min_len := min src.length dst.length
  (src.take min_len ++ dst.drop min_len, min_len)

/-- Model of `Buffer::new` (src/lib.rs lines 38-44): wraps the storage, cursor and
counter start at 0.  `From<B> for Buffer<B>` is the same construction. -/
def Buffer.new (data : List Nat) : Buffer :=
  { data := data, write_cursor := 0, written := 0 }

/-- Model of `Buffer::write` (src/lib.rs lines 48-75).  `none` models the panic on
`% size` when the storage is empty (and the out-of-bounds slice
`data[write_cursor..]` for malformed states).  Mirrors the source step by
step: count `n`, bump `written`, truncate the input to its last `size`
bytes when longer than the storage, first copy at the cursor, second copy
at the front when `n > remain`, then advance the cursor modulo `size`. -/
def Buffer.write (b : Buffer) (buf : List Nat) : Option (Buffer × Nat) :=
  let n := buf.length
  let size := b.data.length
  let written := b.written + n
  let buf := if n > size then buf.drop (n - size) else buf
  if b.write_cursor ≤ size then
    let remain := size - b.write_cursor
    let tl := (copy (b.data.drop b.write_cursor) buf).1
    let data := b.data.take b.write_cursor ++ tl
    let data := if n > remain then (copy data (buf.drop remain)).1 else data
    if size = 0 then none
    else some ({ data := data,
                 write_cursor := (b.write_cursor + buf.length) % size,
                 written := written }, n)
  else none

/-- Model of `Buffer::read_hint` (src/lib.rs lines 81-92): how many bytes can be
read.  The last branch is `data[..write_cursor].len()`, rendered as the
length of `take`. -/
def Buffer.read_hint (b : Buffer) : Nat :=
  let size := b.data.length
  if b.written ≥ size ∧ b.write_cursor = 0 then b.data.length
  else if b.written > size then size
  else (b.data.take b.write_cursor).length

/-- Model of `Buffer::read_into` (src/lib.rs lines 103-128): writes the retained
bytes into `dst` in chronological order, returning the new `dst` and the
count.  `none` models the documented panics: `dst[..size]` and
`dst[..write_cursor]` out of bounds, `data[write_cursor..]` /
`dst[size - write_cursor..]` out of bounds in the wrapped branch. -/
def Buffer.read_into (b : Buffer) (dst : List Nat) : Option (List Nat × Nat) :=
  let data := b.data
  let size := data.length
  if b.written ≥ size ∧ b.write_cursor = 0 then
    if size ≤ dst.length then some (data ++ dst.drop size, size) else none
  else if b.written > size then
    if b.write_cursor ≤ size then
      let dst1 := (copy dst (data.drop b.write_cursor)).1
      if size - b.write_cursor ≤ dst1.length then
        some (dst1.take (size - b.write_cursor) ++
                (copy (dst1.drop (size - b.write_cursor)) (data.take b.write_cursor)).1,
              size)
      else none
    else none
  else
    if b.write_cursor ≤ dst.length ∧ b.write_cursor ≤ data.length then
      some (data.take b.write_cursor ++ dst.drop b.write_cursor, b.write_cursor)
    else none

/-- Model of `Buffer::read_to_bytes` (src/lib.rs lines 135-154): the retained bytes
as a view.  The wrapped branch materialises a fresh `vec![0; size]` and runs
the two-segment copy into it. -/
def Buffer.read_to_bytes (b : Buffer) : List Nat :=
  let data := b.data
  let size := data.length
  if b.written ≥ size ∧ b.write_cursor = 0 then data
  else if b.written > size then
    let out := (copy (List.replicate size 0) (data.drop b.write_cursor)).1
    out.take (size - b.write_cursor) ++
      (copy (out.drop (size - b.write_cursor)) (data.take b.write_cursor)).1
  else data.take b.write_cursor

/-- Model of `Buffer::size` (src/lib.rs lines 158-163). -/
def Buffer.size (b : Buffer) : Nat := b.data.length

/-- Model of `Buffer::reset` (src/lib.rs lines 173-176): zeroes the cursor and the
counter, touches nothing else. -/
def Buffer.reset (b : Buffer) : Buffer :=
  { b with write_cursor := 0, written := 0 }

/-- Model of `Buffer::into_inner` (src/lib.rs lines 180-182). -/
def Buffer.into_inner (b : Buffer) : List Nat := b.data

/-- One mutating call on the buffer: a `write` with some input, or `reset`. -/
inductive Op where
  | write (buf : List Nat)
  | reset

/-- Apply one call; `none` when `write` panics. -/
def Buffer.applyOp (b : Buffer) : Op → Option Buffer
  | Op.write buf => (b.write buf).map Prod.fst
  | Op.reset => some b.reset

/-- Run a sequence of calls from a state. -/
def runOps : Buffer → List Op → Option Buffer
  | b, [] => some b
  | b, op :: ops =>
    match b.applyOp op with
    | none => none
    | some b2 => runOps b2 ops

/-- Run a sequence of `write` calls from a state. -/
def runWrites : Buffer → List (List Nat) → Option Buffer
  | b, [] => some b
  | b, buf :: rest =>
    match b.write buf with
    | none => none
    | some p => runWrites p.1 rest

/-- States reachable from a freshly constructed buffer over storage of
length `c` by some sequence of `write`/`reset` calls. -/
def Reachable (c : Nat) (b : Buffer) : Prop :=
  ∃ d0 ops, List.length d0 = c ∧ runOps (Buffer.new d0) ops = some b

/-- The last `c` elements of a sequence (all of it when it is shorter). -/
def lastN (c : Nat) (s : List Nat) : List Nat := s.drop (s.length - c)

/-- The structural invariant of reachable states: the cursor stays below the
capacity, and while the total written does not exceed the capacity the
cursor equals the total written modulo the capacity. -/
def Buffer.Inv (b : Buffer) : Prop :=
  b.write_cursor < b.data.length ∧
    (b.written ≤ b.data.length → b.write_cursor = b.written % b.data.length)

/-! ### Basic lemmas about `copy` and `lastN` -/

theorem copy_fst_length (dst src : List Nat) : ((copy dst src).1).length = dst.length := by
  simp [copy]

theorem copy_eq_of_le (dst src : List Nat) (h : src.length ≤ dst.length) :
    (copy dst src).1 = src ++ dst.drop src.length := by
  simp [copy, Nat.min_eq_left h]

theorem copy_eq_of_ge (dst src : List Nat) (h : dst.length ≤ src.length) :
    (copy dst src).1 = src.take dst.length := by
  simp [copy, Nat.min_eq_right h, List.drop_of_length_le (le_refl dst.length)]

theorem lastN_length (c : Nat) (s : List Nat) : (lastN c s).length = min c s.length := by
  simp [lastN]
  omega

theorem lastN_of_length_le {c : Nat} {s : List Nat} (h : s.length ≤ c) : lastN c s = s := by
  simp [lastN, Nat.sub_eq_zero_of_le h]

theorem lastN_append_of_ge {c : Nat} {t : List Nat} (s : List Nat) (h : c ≤ t.length) :
    lastN c (s ++ t) = lastN c t := by
  have h1 : s.length ≤ s.length + t.length - c := by omega
  simp [lastN, List.drop_append_eq_append_drop, List.drop_of_length_le h1]
  congr 1
  omega

theorem lastN_append_of_le {c : Nat} {t : List Nat} (s : List Nat) (h : t.length ≤ c) :
    lastN c (s ++ t) = lastN (c - t.length) s ++ t := by
  simp [lastN, List.drop_append_eq_append_drop]
  have h1 : s.length + t.length - c - s.length = 0 := by omega
  have h2 : s.length + t.length - c = s.length - (c - t.length) := by omega
  rw [h1, h2, List.drop_zero]

theorem lastN_lastN {k c : Nat} (s : List Nat) (h : k ≤ c) :
    lastN k (lastN c s) = lastN k s := by
  simp [lastN, List.drop_drop]
  congr 1
  omega

theorem lastN_idem_append (c : Nat) (s t : List Nat) :
    lastN c (lastN c s ++ t) = lastN c (s ++ t) := by
  rcases le_or_lt c t.length with h | h
  · rw [lastN_append_of_ge _ h, lastN_append_of_ge _ h]
  · rw [lastN_append_of_le _ (le_of_lt h), lastN_append_of_le _ (le_of_lt h),
      lastN_lastN _ (Nat.sub_le c t.length)]

/-! ### Closed forms of `Buffer.write` -/

theorem write_eq_A (b : Buffer) (buf : List Nat) (hsz : 0 < b.data.length)
    (hcur : b.write_cursor ≤ b.data.length)
    (hn : buf.length ≤ b.data.length - b.write_cursor) :
    b.write buf = some ({ data := b.data.take b.write_cursor ++ buf ++
                            b.data.drop (b.write_cursor + buf.length),
                          write_cursor := (b.write_cursor + buf.length) % b.data.length,
                          written := b.written + buf.length }, buf.length) := by
  have h1 : ¬ buf.length > b.data.length := by omega
  have h2 : ¬ buf.length > b.data.length - b.write_cursor := by omega
  have h3 : ¬ (b.data.length = 0) := by omega
  have hk : min buf.length (b.data.drop b.write_cursor).length = buf.length := by
    simp [List.length_drop]
    omega
  simp only [Buffer.write, if_neg h1, if_pos hcur, if_neg h2, if_neg h3, copy, hk]
  simp [List.take_length, List.drop_drop]


theorem write_eq_B (b : Buffer) (buf : List Nat)
    (hcur : b.write_cursor < b.data.length)
    (hn : b.data.length - b.write_cursor < buf.length) :
    b.write buf = some ({ data :=
                            (buf.drop (buf.length - b.data.length)).drop
                                (b.data.length - b.write_cursor) ++
                              ((b.data.take b.write_cursor).drop
                                (min buf.length b.data.length -
                                  (b.data.length - b.write_cursor)) ++
                                (buf.drop (buf.length - b.data.length)).take
                                  (b.data.length - b.write_cursor)),
                          write_cursor := min buf.length b.data.length -
                            (b.data.length - b.write_cursor),
                          written := b.written + buf.length }, buf.length) := by
  have h3 : ¬ (b.data.length = 0) := by omega
  have hcurle : b.write_cursor ≤ b.data.length := le_of_lt hcur
  have hn2 : buf.length > b.data.length - b.write_cursor := hn
  have htrunc : (if buf.length > b.data.length then buf.drop (buf.length - b.data.length) else buf)
      = buf.drop (buf.length - b.data.length) := by
    split
    · rfl
    · have h0 : buf.length - b.data.length = 0 := by omega
      rw [h0, List.drop_zero]
  simp only [Buffer.write, htrunc, if_pos hcurle, if_pos hn2, if_neg h3, copy]
  have hk1 : min (List.drop (buf.length - b.data.length) buf).length
      (List.drop b.write_cursor b.data).length = b.data.length - b.write_cursor := by
    simp [List.length_drop]
    omega
  rw [hk1]
  have hdd : List.drop (b.data.length - b.write_cursor) (List.drop b.write_cursor b.data)
      = ([] : List Nat) := by
    apply List.drop_of_length_le
    simp [List.length_drop]
  rw [hdd, List.append_nil]
  have hk2 : min
      (List.drop (b.data.length - b.write_cursor) (List.drop (buf.length - b.data.length) buf)).length
      (List.take b.write_cursor b.data ++
        List.take (b.data.length - b.write_cursor) (List.drop (buf.length - b.data.length) buf)).length
      = min buf.length b.data.length - (b.data.length - b.write_cursor) := by
    simp [List.length_drop, List.length_take]
    omega
  rw [hk2]
  have ht : List.take (min buf.length b.data.length - (b.data.length - b.write_cursor))
      (List.drop (b.data.length - b.write_cursor) (List.drop (buf.length - b.data.length) buf))
      = List.drop (b.data.length - b.write_cursor) (List.drop (buf.length - b.data.length) buf) := by
    apply List.take_of_length_le
    simp [List.length_drop]
    omega
  rw [ht]
  have hdr : List.drop (min buf.length b.data.length - (b.data.length - b.write_cursor))
      (List.take b.write_cursor b.data ++
        List.take (b.data.length - b.write_cursor) (List.drop (buf.length - b.data.length) buf))
      = List.drop (min buf.length b.data.length - (b.data.length - b.write_cursor))
          (List.take b.write_cursor b.data) ++
        List.take (b.data.length - b.write_cursor) (List.drop (buf.length - b.data.length) buf) := by
    rw [List.drop_append_eq_append_drop]
    have h0 : min buf.length b.data.length - (b.data.length - b.write_cursor) -
        (List.take b.write_cursor b.data).length = 0 := by
      simp [List.length_take]
      omega
    rw [h0, List.drop_zero]
  rw [hdr]
  have hcl : b.write_cursor + (List.drop (buf.length - b.data.length) buf).length
      = b.data.length + (min buf.length b.data.length - (b.data.length - b.write_cursor)) := by
    simp [List.length_drop]
    omega
  rw [hcl, Nat.add_mod_left, Nat.mod_eq_of_lt (by omega)]


/-! ### Characterizations of the read paths -/

theorem read_to_bytes_of_lt (b : Buffer) (h : b.written < b.data.length) :
    b.read_to_bytes = b.data.take b.write_cursor := by
  have h1 : ¬ (b.written ≥ b.data.length ∧ b.write_cursor = 0) := by
    intro hx
    omega
  have h2 : ¬ b.written > b.data.length := by omega
  simp only [Buffer.read_to_bytes, if_neg h1, if_neg h2]

theorem read_to_bytes_of_boundary (b : Buffer) (h : b.data.length ≤ b.written)
    (h0 : b.write_cursor = 0) : b.read_to_bytes = b.data := by
  have h1 : b.written ≥ b.data.length ∧ b.write_cursor = 0 := ⟨h, h0⟩
  simp only [Buffer.read_to_bytes, if_pos h1]

theorem read_to_bytes_of_wrapped (b : Buffer) (hwf : b.write_cursor ≤ b.data.length)
    (h : b.data.length < b.written) :
    b.read_to_bytes = b.data.drop b.write_cursor ++ b.data.take b.write_cursor := by
  by_cases h0 : b.write_cursor = 0
  · rw [read_to_bytes_of_boundary b (le_of_lt h) h0, h0]
    simp
  · have h1 : ¬ (b.written ≥ b.data.length ∧ b.write_cursor = 0) := fun hx => h0 hx.2
    simp only [Buffer.read_to_bytes, if_neg h1, if_pos h, copy]
    have hk1 : min (b.data.drop b.write_cursor).length
        (List.replicate b.data.length (0:Nat)).length = b.data.length - b.write_cursor := by
      simp [List.length_drop]
    rw [hk1]
    have ht1 : (b.data.drop b.write_cursor).take (b.data.length - b.write_cursor)
        = b.data.drop b.write_cursor := by
      apply List.take_of_length_le
      simp [List.length_drop]
    have hr1 : (List.replicate b.data.length (0:Nat)).drop (b.data.length - b.write_cursor)
        = List.replicate b.write_cursor 0 := by
      rw [List.drop_replicate]
      congr 1
      omega
    rw [ht1, hr1]
    have ht2 : (b.data.drop b.write_cursor ++ List.replicate b.write_cursor (0:Nat)).take
        (b.data.length - b.write_cursor) = b.data.drop b.write_cursor := by
      rw [List.take_append_eq_append_take]
      have e1 : (b.data.drop b.write_cursor).take (b.data.length - b.write_cursor)
          = b.data.drop b.write_cursor := ht1
      have e2 : b.data.length - b.write_cursor - (b.data.drop b.write_cursor).length = 0 := by
        simp [List.length_drop]
      rw [e1, e2, List.take_zero, List.append_nil]
    have hd2 : (b.data.drop b.write_cursor ++ List.replicate b.write_cursor (0:Nat)).drop
        (b.data.length - b.write_cursor) = List.replicate b.write_cursor 0 := by
      rw [List.drop_append_eq_append_drop]
      have e1 : (b.data.drop b.write_cursor).drop (b.data.length - b.write_cursor) = [] := by
        apply List.drop_of_length_le
        simp [List.length_drop]
      have e2 : b.data.length - b.write_cursor - (b.data.drop b.write_cursor).length = 0 := by
        simp [List.length_drop]
      rw [e1, e2, List.drop_zero, List.nil_append]
    rw [ht2, hd2]
    have hk2 : min (b.data.take b.write_cursor).length
        (List.replicate b.write_cursor (0:Nat)).length = b.write_cursor := by
      simp [List.length_take]
      omega
    rw [hk2]
    have ht3 : (b.data.take b.write_cursor).take b.write_cursor = b.data.take b.write_cursor := by
      apply List.take_of_length_le
      simp [List.length_take]
    have hd3 : (List.replicate b.write_cursor (0:Nat)).drop b.write_cursor = [] := by
      apply List.drop_of_length_le
      simp
    rw [ht3, hd3, List.append_nil]

theorem read_to_bytes_length (b : Buffer) (hwf : b.write_cursor ≤ b.data.length) :
    b.read_to_bytes.length = b.read_hint := by
  by_cases h1 : b.written ≥ b.data.length ∧ b.write_cursor = 0
  · simp only [Buffer.read_to_bytes, Buffer.read_hint, if_pos h1]
  · by_cases h2 : b.written > b.data.length
    · rw [read_to_bytes_of_wrapped b hwf h2]
      simp only [Buffer.read_hint, if_neg h1, if_pos h2]
      simp [List.length_drop, List.length_take]
      omega
    · simp only [Buffer.read_to_bytes, Buffer.read_hint, if_neg h1, if_neg h2]

theorem read_hint_eq_min (b : Buffer) (hInv : b.Inv) :
    b.read_hint = min b.written b.data.length := by
  obtain ⟨hcur, hmod⟩ := hInv
  rcases Nat.lt_trichotomy b.written b.data.length with hlt | heq | hgt
  · have h1 : ¬ (b.written ≥ b.data.length ∧ b.write_cursor = 0) := by
      intro hx
      omega
    have h2 : ¬ (b.written > b.data.length) := by omega
    have hc : b.write_cursor = b.written := by
      rw [hmod (le_of_lt hlt), Nat.mod_eq_of_lt hlt]
    simp only [Buffer.read_hint, if_neg h1, if_neg h2]
    rw [List.length_take, hc]
  · have hc : b.write_cursor = 0 := by
      rw [hmod (le_of_eq heq), heq, Nat.mod_self]
    have h1 : b.written ≥ b.data.length ∧ b.write_cursor = 0 := ⟨le_of_eq heq.symm, hc⟩
    simp only [Buffer.read_hint, if_pos h1]
    omega
  · by_cases hc : b.write_cursor = 0
    · simp only [Buffer.read_hint, if_pos (And.intro (le_of_lt hgt) hc)]
      omega
    · have h1 : ¬ (b.written ≥ b.data.length ∧ b.write_cursor = 0) := by
        intro hx
        exact hc hx.2
      simp only [Buffer.read_hint, if_neg h1, if_pos hgt]
      omega

theorem read_into_eq (b : Buffer) (dst : List Nat) (hwf : b.write_cursor ≤ b.data.length)
    (hdst : b.read_to_bytes.length ≤ dst.length) :
    b.read_into dst = some (b.read_to_bytes ++ dst.drop b.read_to_bytes.length,
      b.read_to_bytes.length) := by
  by_cases h1 : b.written ≥ b.data.length ∧ b.write_cursor = 0
  · rw [read_to_bytes_of_boundary b h1.1 h1.2] at hdst ⊢
    simp only [Buffer.read_into, if_pos h1, if_pos hdst]
  · by_cases h2 : b.written > b.data.length
    · rw [read_to_bytes_of_wrapped b hwf h2] at hdst ⊢
      have hlen : (b.data.drop b.write_cursor ++ b.data.take b.write_cursor).length
          = b.data.length := by
        simp [List.length_drop, List.length_take]
        omega
      rw [hlen] at hdst ⊢
      simp only [Buffer.read_into, if_neg h1, if_pos h2, if_pos hwf, copy]
      have hk1 : min (b.data.drop b.write_cursor).length dst.length
          = b.data.length - b.write_cursor := by
        simp [List.length_drop]
        omega
      rw [hk1]
      have ht1 : (b.data.drop b.write_cursor).take (b.data.length - b.write_cursor)
          = b.data.drop b.write_cursor := by
        apply List.take_of_length_le
        simp [List.length_drop]
      rw [ht1]
      have hg : b.data.length - b.write_cursor ≤
          (b.data.drop b.write_cursor ++ dst.drop (b.data.length - b.write_cursor)).length := by
        simp [List.length_drop]
      rw [if_pos hg]
      have ht2 : (b.data.drop b.write_cursor ++ dst.drop (b.data.length - b.write_cursor)).take
          (b.data.length - b.write_cursor) = b.data.drop b.write_cursor := by
        rw [List.take_append_eq_append_take]
        have e1 : b.data.length - b.write_cursor - (b.data.drop b.write_cursor).length = 0 := by
          simp [List.length_drop]
        rw [ht1, e1, List.take_zero, List.append_nil]
      have hd2 : (b.data.drop b.write_cursor ++ dst.drop (b.data.length - b.write_cursor)).drop
          (b.data.length - b.write_cursor) = dst.drop (b.data.length - b.write_cursor) := by
        rw [List.drop_append_eq_append_drop]
        have e1 : (b.data.drop b.write_cursor).drop (b.data.length - b.write_cursor) = [] := by
          apply List.drop_of_length_le
          simp [List.length_drop]
        have e2 : b.data.length - b.write_cursor - (b.data.drop b.write_cursor).length = 0 := by
          simp [List.length_drop]
        rw [e1, e2, List.drop_zero, List.nil_append]
      rw [ht2, hd2]
      have hk2 : min (b.data.take b.write_cursor).length
          (dst.drop (b.data.length - b.write_cursor)).length = b.write_cursor := by
        simp [List.length_take, List.length_drop]
        omega
      rw [hk2]
      have ht3 : (b.data.take b.write_cursor).take b.write_cursor
          = b.data.take b.write_cursor := by
        apply List.take_of_length_le
        simp [List.length_take]
      have hd3 : (dst.drop (b.data.length - b.write_cursor)).drop b.write_cursor
          = dst.drop b.data.length := by
        rw [List.drop_drop]
        congr 1
        omega
      rw [ht3, hd3, List.append_assoc]
    · have hlt : b.written < b.data.length ∨
          (b.written = b.data.length ∧ b.write_cursor ≠ 0) := by
        rcases Nat.lt_or_ge b.written b.data.length with h | h
        · exact Or.inl h
        · refine Or.inr ⟨by omega, ?_⟩
          intro h0
          exact h1 ⟨h, h0⟩
      have hcont : b.read_to_bytes = b.data.take b.write_cursor := by
        rcases hlt with h | ⟨h, h0⟩
        · exact read_to_bytes_of_lt b h
        · have hx1 : ¬ (b.written ≥ b.data.length ∧ b.write_cursor = 0) := h1
          have hx2 : ¬ b.written > b.data.length := by omega
          simp only [Buffer.read_to_bytes, if_neg hx1, if_neg hx2]
      rw [hcont] at hdst ⊢
      have hlen : (b.data.take b.write_cursor).length = b.write_cursor := by
        simp [List.length_take]
        omega
      rw [hlen] at hdst ⊢
      have hg : b.write_cursor ≤ dst.length ∧ b.write_cursor ≤ b.data.length := ⟨hdst, hwf⟩
      simp only [Buffer.read_into, if_neg h1, if_neg h2, if_pos hg]

theorem mk_data (d : List Nat) (w t : Nat) : (Buffer.mk d w t).data = d := rfl

theorem mk_cursor (d : List Nat) (w t : Nat) : (Buffer.mk d w t).write_cursor = w := rfl

theorem mk_written (d : List Nat) (w t : Nat) : (Buffer.mk d w t).written = t := rfl

theorem read_to_bytes_of_ge (b : Buffer) (hInv : b.Inv) (h : b.data.length ≤ b.written) :
    b.read_to_bytes = b.data.drop b.write_cursor ++ b.data.take b.write_cursor := by
  obtain ⟨hcur, hmod⟩ := hInv
  rcases Nat.lt_or_ge b.data.length b.written with hgt | hle
  · exact read_to_bytes_of_wrapped b (le_of_lt hcur) hgt
  · have heq : b.written = b.data.length := le_antisymm hle h
    have hc0 : b.write_cursor = 0 := by
      rw [hmod (le_of_eq heq), heq, Nat.mod_self]
    rw [read_to_bytes_of_boundary b h hc0, hc0]
    simp

/-! ### Single-write simulation: one `write` call appends to the retained
stream and keeps only the last `capacity` bytes. -/

theorem write_sim (b : Buffer) (buf : List Nat) (hInv : b.Inv) :
    ∃ b2, b.write buf = some (b2, buf.length) ∧ b2.data.length = b.data.length ∧
      b2.written = b.written + buf.length ∧ b2.Inv ∧
      b2.read_to_bytes = lastN b.data.length (b.read_to_bytes ++ buf) := by
  obtain ⟨hcur, hmod⟩ := hInv
  have hc : 0 < b.data.length := by omega
  have hcw_le : b.write_cursor ≤ b.written := by
    rcases le_or_lt b.written b.data.length with h | h
    · rw [hmod h]
      exact Nat.mod_le _ _
    · omega
  by_cases hA : buf.length ≤ b.data.length - b.write_cursor
  case pos =>
    have hdl : (b.data.take b.write_cursor ++ buf ++
        b.data.drop (b.write_cursor + buf.length)).length = b.data.length := by
      simp only [List.length_append, List.length_take, List.length_drop]
      omega
    have htk : (b.data.take b.write_cursor ++ buf ++
        b.data.drop (b.write_cursor + buf.length)).take (b.write_cursor + buf.length)
        = b.data.take b.write_cursor ++ buf := by
      rw [List.append_assoc, List.take_append_eq_append_take]
      have e1 : (b.data.take b.write_cursor).take (b.write_cursor + buf.length)
          = b.data.take b.write_cursor := by
        apply List.take_of_length_le
        simp only [List.length_take]
        omega
      have e2 : b.write_cursor + buf.length - (b.data.take b.write_cursor).length
          = buf.length := by
        simp only [List.length_take]
        omega
      rw [e1, e2, List.take_append_eq_append_take, List.take_length, Nat.sub_self,
        List.take_zero, List.append_nil]
    have hdr : (b.data.take b.write_cursor ++ buf ++
        b.data.drop (b.write_cursor + buf.length)).drop (b.write_cursor + buf.length)
        = b.data.drop (b.write_cursor + buf.length) := by
      rw [List.drop_append_eq_append_drop]
      have e1 : (b.data.take b.write_cursor ++ buf).drop (b.write_cursor + buf.length) = [] := by
        apply List.drop_of_length_le
        simp only [List.length_append, List.length_take]
        omega
      have e2 : b.write_cursor + buf.length -
          (b.data.take b.write_cursor ++ buf).length = 0 := by
        simp only [List.length_append, List.length_take]
        omega
      rw [e1, e2, List.drop_zero, List.nil_append]
    have hInv2 : Buffer.Inv (Buffer.mk (b.data.take b.write_cursor ++ buf ++
        b.data.drop (b.write_cursor + buf.length))
        ((b.write_cursor + buf.length) % b.data.length) (b.written + buf.length)) := by
      constructor
      · simp only [mk_cursor, mk_data, hdl]
        exact Nat.mod_lt _ hc
      · intro h
        simp only [mk_written, mk_data, hdl] at h
        simp only [mk_cursor, mk_written, mk_data, hdl]
        rw [hmod (by omega), Nat.mod_add_mod]
    refine ⟨_, write_eq_A b buf hc (le_of_lt hcur) hA, hdl, rfl, hInv2, ?_⟩
    rcases Nat.lt_or_ge b.written b.data.length with hwlt | hwge
    · have hcw : b.write_cursor = b.written := by
        rw [hmod (le_of_lt hwlt), Nat.mod_eq_of_lt hwlt]
      rw [read_to_bytes_of_lt b hwlt]
      rcases Nat.lt_or_ge (b.write_cursor + buf.length) b.data.length with hs | hs
      · have hmodeq : (b.write_cursor + buf.length) % b.data.length
            = b.write_cursor + buf.length := Nat.mod_eq_of_lt hs
        rw [read_to_bytes_of_lt _ (by simp only [mk_written, mk_data, hdl]; omega)]
        simp only [mk_data, mk_cursor, hmodeq, htk]
        have hfit : (b.data.take b.write_cursor ++ buf).length ≤ b.data.length := by
          simp only [List.length_append, List.length_take]
          omega
        rw [lastN_of_length_le hfit]
      · have hsum : b.write_cursor + buf.length = b.data.length := by omega
        have h0 : (b.write_cursor + buf.length) % b.data.length = 0 := by
          rw [hsum, Nat.mod_self]
        rw [read_to_bytes_of_boundary _ (by simp only [mk_written, mk_data, hdl]; omega)
          (by simp only [mk_cursor]; exact h0)]
        simp only [mk_data]
        have hd0 : b.data.drop (b.write_cursor + buf.length) = [] := by
          rw [hsum]
          exact List.drop_length b.data
        have hfit : (b.data.take b.write_cursor ++ buf).length ≤ b.data.length := by
          simp only [List.length_append, List.length_take]
          omega
        rw [hd0, List.append_nil, lastN_of_length_le hfit]
    · rw [read_to_bytes_of_ge b ⟨hcur, hmod⟩ hwge]
      have hble : buf.length ≤ b.data.length := by omega
      rw [lastN_append_of_le _ hble]
      have hidx : (b.data.drop b.write_cursor ++ b.data.take b.write_cursor).length -
          (b.data.length - buf.length) = buf.length := by
        simp only [List.length_append, List.length_take, List.length_drop]
        omega
      have hlast : lastN (b.data.length - buf.length)
          (b.data.drop b.write_cursor ++ b.data.take b.write_cursor)
          = b.data.drop (b.write_cursor + buf.length) ++ b.data.take b.write_cursor := by
        simp only [lastN, hidx]
        rw [List.drop_append_eq_append_drop]
        have e2 : buf.length - (b.data.drop b.write_cursor).length = 0 := by
          simp only [List.length_drop]
          omega
        rw [List.drop_drop, e2, List.drop_zero]
      rw [hlast]
      rcases Nat.lt_or_ge (b.write_cursor + buf.length) b.data.length with hs | hs
      · have hmodeq : (b.write_cursor + buf.length) % b.data.length
            = b.write_cursor + buf.length := Nat.mod_eq_of_lt hs
        rw [read_to_bytes_of_ge _ hInv2 (by simp only [mk_written, mk_data, hdl]; omega)]
        simp only [mk_data, mk_cursor, hmodeq, htk, hdr]
        rw [List.append_assoc]
      · have hsum : b.write_cursor + buf.length = b.data.length := by omega
        have h0 : (b.write_cursor + buf.length) % b.data.length = 0 := by
          rw [hsum, Nat.mod_self]
        rw [read_to_bytes_of_ge _ hInv2 (by simp only [mk_written, mk_data, hdl]; omega)]
        simp only [mk_data, mk_cursor, h0, List.drop_zero, List.take_zero, List.append_nil]
        have hd0 : b.data.drop (b.write_cursor + buf.length) = [] := by
          rw [hsum]
          exact List.drop_length b.data
        rw [hd0, List.append_nil, List.nil_append]
  case neg =>
    have hn : b.data.length - b.write_cursor < buf.length := by omega
    have hbdlen : ((buf.drop (buf.length - b.data.length)).drop
        (b.data.length - b.write_cursor)).length
        = min buf.length b.data.length - (b.data.length - b.write_cursor) := by
      simp only [List.length_drop]
      omega
    have hdl : ((buf.drop (buf.length - b.data.length)).drop (b.data.length - b.write_cursor) ++
        ((b.data.take b.write_cursor).drop
          (min buf.length b.data.length - (b.data.length - b.write_cursor)) ++
          (buf.drop (buf.length - b.data.length)).take (b.data.length - b.write_cursor))).length
        = b.data.length := by
      simp only [List.length_append, List.length_drop, List.length_take]
      omega
    have hInv2 : Buffer.Inv (Buffer.mk
        ((buf.drop (buf.length - b.data.length)).drop (b.data.length - b.write_cursor) ++
          ((b.data.take b.write_cursor).drop
            (min buf.length b.data.length - (b.data.length - b.write_cursor)) ++
            (buf.drop (buf.length - b.data.length)).take (b.data.length - b.write_cursor)))
        (min buf.length b.data.length - (b.data.length - b.write_cursor))
        (b.written + buf.length)) := by
      constructor
      · simp only [mk_cursor, mk_data, hdl]
        omega
      · intro h
        simp only [mk_written, mk_data, hdl] at h
        exact absurd h (by omega)
    refine ⟨_, write_eq_B b buf hcur hn, hdl, rfl, hInv2, ?_⟩
    rw [read_to_bytes_of_ge _ hInv2 (by simp only [mk_written, mk_data, hdl]; omega)]
    simp only [mk_data, mk_cursor]
    have hDdrop : ((buf.drop (buf.length - b.data.length)).drop
        (b.data.length - b.write_cursor) ++
        ((b.data.take b.write_cursor).drop
          (min buf.length b.data.length - (b.data.length - b.write_cursor)) ++
          (buf.drop (buf.length - b.data.length)).take (b.data.length - b.write_cursor))).drop
        (min buf.length b.data.length - (b.data.length - b.write_cursor))
        = (b.data.take b.write_cursor).drop
            (min buf.length b.data.length - (b.data.length - b.write_cursor)) ++
          (buf.drop (buf.length - b.data.length)).take (b.data.length - b.write_cursor) := by
      rw [List.drop_append_eq_append_drop]
      have e1 : ((buf.drop (buf.length - b.data.length)).drop
          (b.data.length - b.write_cursor)).drop
          (min buf.length b.data.length - (b.data.length - b.write_cursor)) = [] := by
        apply List.drop_of_length_le
        rw [hbdlen]
      have e2 : min buf.length b.data.length - (b.data.length - b.write_cursor) -
          ((buf.drop (buf.length - b.data.length)).drop
            (b.data.length - b.write_cursor)).length = 0 := by
        rw [hbdlen]
        omega
      rw [e1, e2, List.drop_zero, List.nil_append]
    have hDtake : ((buf.drop (buf.length - b.data.length)).drop
        (b.data.length - b.write_cursor) ++
        ((b.data.take b.write_cursor).drop
          (min buf.length b.data.length - (b.data.length - b.write_cursor)) ++
          (buf.drop (buf.length - b.data.length)).take (b.data.length - b.write_cursor))).take
        (min buf.length b.data.length - (b.data.length - b.write_cursor))
        = (buf.drop (buf.length - b.data.length)).drop (b.data.length - b.write_cursor) := by
      rw [List.take_append_eq_append_take]
      have e1 : ((buf.drop (buf.length - b.data.length)).drop
          (b.data.length - b.write_cursor)).take
          (min buf.length b.data.length - (b.data.length - b.write_cursor))
          = (buf.drop (buf.length - b.data.length)).drop (b.data.length - b.write_cursor) := by
        apply List.take_of_length_le
        rw [hbdlen]
      have e2 : min buf.length b.data.length - (b.data.length - b.write_cursor) -
          ((buf.drop (buf.length - b.data.length)).drop
            (b.data.length - b.write_cursor)).length = 0 := by
        rw [hbdlen]
        omega
      rw [e1, e2, List.take_zero, List.append_nil]
    rw [hDdrop, hDtake, List.append_assoc, List.take_append_drop]
    rcases le_or_lt b.data.length buf.length with hcn | hcn
    · rw [lastN_append_of_ge _ hcn]
      have hz : (b.data.take b.write_cursor).drop
          (min buf.length b.data.length - (b.data.length - b.write_cursor)) = [] := by
        apply List.drop_of_length_le
        simp only [List.length_take]
        omega
      rw [hz, List.nil_append]
      simp only [lastN]
    · have hm : min buf.length b.data.length = buf.length := Nat.min_eq_left (le_of_lt hcn)
      have hbuf : buf.drop (buf.length - b.data.length) = buf := by
        have e : buf.length - b.data.length = 0 := by omega
        rw [e, List.drop_zero]
      rw [hbuf, hm]
      rcases Nat.lt_or_ge b.written b.data.length with hwlt | hwge
      · have hcw : b.write_cursor = b.written := by
          rw [hmod (le_of_lt hwlt), Nat.mod_eq_of_lt hwlt]
        rw [read_to_bytes_of_lt b hwlt]
        simp only [lastN, List.length_append, List.length_take]
        have hidx : min b.write_cursor b.data.length + buf.length - b.data.length
            = buf.length - (b.data.length - b.write_cursor) := by omega
        rw [hidx, List.drop_append_eq_append_drop]
        have e2 : buf.length - (b.data.length - b.write_cursor) -
            (b.data.take b.write_cursor).length = 0 := by
          simp only [List.length_take]
          omega
        rw [e2, List.drop_zero]
      · rw [read_to_bytes_of_ge b ⟨hcur, hmod⟩ hwge]
        rw [lastN_append_of_le _ (le_of_lt hcn)]
        have hidx : (b.data.drop b.write_cursor ++ b.data.take b.write_cursor).length -
            (b.data.length - buf.length) = buf.length := by
          simp only [List.length_append, List.length_take, List.length_drop]
          omega
        simp only [lastN, hidx]
        rw [List.drop_append_eq_append_drop]
        have e1 : (b.data.drop b.write_cursor).drop buf.length = [] := by
          apply List.drop_of_length_le
          simp only [List.length_drop]
          omega
        have e2 : buf.length - (b.data.drop b.write_cursor).length
            = buf.length - (b.data.length - b.write_cursor) := by
          simp only [List.length_drop]
        rw [e1, e2, List.nil_append]

/-! ### Runs of calls and reachability -/

theorem inv_new (d0 : List Nat) (hc : 0 < d0.length) : (Buffer.new d0).Inv := by
  constructor
  · exact hc
  · intro h
    simp [Buffer.new]

theorem inv_reset (b : Buffer) (hc : 0 < b.data.length) : b.reset.Inv := by
  constructor
  · exact hc
  · intro h
    simp [Buffer.reset]

theorem read_to_bytes_new (d0 : List Nat) (hc : 0 < d0.length) :
    (Buffer.new d0).read_to_bytes = [] := by
  rw [read_to_bytes_of_lt (Buffer.new d0) hc]
  simp [Buffer.new]

theorem runWrites_sim (chunks : List (List Nat)) (b : Buffer) (hInv : b.Inv) :
    ∃ b2, runWrites b chunks = some b2 ∧ b2.Inv ∧ b2.data.length = b.data.length ∧
      b2.written = b.written + (chunks.map List.length).sum ∧
      b2.read_to_bytes = lastN b.data.length (b.read_to_bytes ++ chunks.flatten) := by
  induction chunks generalizing b with
  | nil =>
    refine ⟨b, rfl, hInv, rfl, by simp, ?_⟩
    have hlen : b.read_to_bytes.length ≤ b.data.length := by
      rw [read_to_bytes_length b (le_of_lt hInv.1), read_hint_eq_min b hInv]
      omega
    rw [List.flatten_nil, List.append_nil, lastN_of_length_le hlen]
  | cons buf rest ih =>
    obtain ⟨b1, hw, hlen1, hwr1, hInv1, hcont1⟩ := write_sim b buf hInv
    obtain ⟨b2, hrun, hInv2, hlen2, hwr2, hcont2⟩ := ih b1 hInv1
    refine ⟨b2, ?_, hInv2, by rw [hlen2, hlen1], ?_, ?_⟩
    · simp only [runWrites, hw]
      exact hrun
    · rw [hwr2, hwr1]
      simp only [List.map_cons, List.sum_cons]
      omega
    · rw [hcont2, hcont1, hlen1, lastN_idem_append, List.append_assoc, List.flatten_cons]

theorem runOps_inv (ops : List Op) (b b2 : Buffer) (hInv : b.Inv)
    (hrun : runOps b ops = some b2) : b2.Inv ∧ b2.data.length = b.data.length := by
  induction ops generalizing b with
  | nil =>
    simp only [runOps, Option.some.injEq] at hrun
    subst hrun
    exact ⟨hInv, rfl⟩
  | cons op rest ih =>
    cases op with
    | write buf =>
      obtain ⟨b1, hw, hlen1, hwr1, hInv1, hcont1⟩ := write_sim b buf hInv
      simp only [runOps, Buffer.applyOp, hw, Option.map_some'] at hrun
      obtain ⟨hI, hL⟩ := ih b1 hInv1 hrun
      exact ⟨hI, by rw [hL, hlen1]⟩
    | reset =>
      simp only [runOps, Buffer.applyOp] at hrun
      have hc : 0 < b.data.length := by
        have := hInv.1
        omega
      obtain ⟨hI, hL⟩ := ih b.reset (inv_reset b hc) hrun
      exact ⟨hI, hL⟩

theorem reachable_inv (c : Nat) (b : Buffer) (hc : 0 < c) (hr : Reachable c b) :
    b.Inv ∧ b.data.length = c := by
  obtain ⟨d0, ops, hd0, hrun⟩ := hr
  have hi := runOps_inv ops (Buffer.new d0) b (inv_new d0 (by omega)) hrun
  refine ⟨hi.1, ?_⟩
  rw [hi.2]
  exact hd0

/-! ### First write after construction or reset -/

theorem write_from_zero (d : List Nat) (w : Nat) (s : List Nat) (hc : 0 < d.length)
    (hs : s.length ≤ d.length) :
    (Buffer.mk d 0 w).write s = some (Buffer.mk (s ++ d.drop s.length)
      (s.length % d.length) (w + s.length), s.length) := by
  have h := write_eq_A (Buffer.mk d 0 w) s hc (Nat.zero_le _) hs
  simpa using h

theorem content_after_first_write (d : List Nat) (s : List Nat) (_hc : 0 < d.length)
    (hs : s.length ≤ d.length) :
    (Buffer.mk (s ++ d.drop s.length) (s.length % d.length) (0 + s.length)).read_to_bytes
      = s := by
  rcases lt_or_eq_of_le hs with hlt | heq
  · have hmodeq : s.length % d.length = s.length := Nat.mod_eq_of_lt hlt
    rw [read_to_bytes_of_lt _ (by
      simp only [mk_written, mk_data, List.length_append, List.length_drop]
      omega)]
    simp only [mk_data, mk_cursor, hmodeq]
    exact List.take_left s _
  · have h0 : s.length % d.length = 0 := by
      rw [heq, Nat.mod_self]
    rw [read_to_bytes_of_boundary _ (by
        simp only [mk_written, mk_data, List.length_append, List.length_drop]
        omega)
      (by simp only [mk_cursor]; exact h0)]
    simp only [mk_data]
    have e1 : d.drop s.length = [] := by
      apply List.drop_of_length_le
      omega
    rw [e1, List.append_nil]

theorem read_into_small (b : Buffer) (h : b.written < b.data.length) (dst : List Nat) :
    b.read_into dst = if b.write_cursor ≤ dst.length ∧ b.write_cursor ≤ b.data.length
      then some (b.data.take b.write_cursor ++ dst.drop b.write_cursor, b.write_cursor)
      else none := by
  have h1 : ¬ (b.written ≥ b.data.length ∧ b.write_cursor = 0) := by
    intro hx
    omega
  have h2 : ¬ (b.written > b.data.length) := by omega
  simp only [Buffer.read_into, if_neg h1, if_neg h2]

/-! ### Claim theorems -/

/-- Claim C1: for every capacity `c > 0`, any initial storage of length `c`, and
any splitting of an input stream into individual `write` calls, the subsequent
reads (`read_to_bytes`, and `read_into` with a sufficiently large destination)
yield exactly the last `min (stream length) c` bytes of the concatenated stream
`chunks.flatten`, in original chronological order — the result depends only on
the concatenation, not on the split. -/
theorem c1_stream_retention (c : Nat) (d0 : List Nat) (chunks : List (List Nat))
    (hc : 0 < c) (hd : d0.length = c) :
    ∃ b, runWrites (Buffer.new d0) chunks = some b ∧
      b.read_to_bytes = lastN c chunks.flatten ∧
      (lastN c chunks.flatten).length = min chunks.flatten.length c ∧
      ∀ dst : List Nat, (lastN c chunks.flatten).length ≤ dst.length →
        b.read_into dst = some (lastN c chunks.flatten ++
          dst.drop (lastN c chunks.flatten).length, (lastN c chunks.flatten).length) := by
  obtain ⟨b, hrun, hInv, hlen, hwr, hcont⟩ := runWrites_sim chunks (Buffer.new d0)
    (inv_new d0 (by omega))
  have hnd : (Buffer.new d0).data.length = c := hd
  rw [read_to_bytes_new d0 (by omega), List.nil_append, hnd] at hcont
  refine ⟨b, hrun, hcont, ?_, ?_⟩
  · rw [lastN_length, Nat.min_comm]
  · intro dst hdst
    rw [read_into_eq b dst (le_of_lt hInv.1) (by rw [hcont]; exact hdst), hcont]

/-- Witness for C1 at capacity 2 with the stream `[1, 2, 3]` split as
`[1]` then `[2, 3]`; the retained content is the last two bytes `[2, 3]`. -/
theorem c1_witness : runWrites (Buffer.new [0, 0]) [[1], [2, 3]]
    = some (Buffer.mk [3, 2] 1 3) ∧ (Buffer.mk [3, 2] 1 3).read_to_bytes = [2, 3] := by
  obtain ⟨b, h1, h2, h3, h4⟩ := c1_stream_retention 2 [0, 0] [[1], [2, 3]] (by decide) rfl
  have hb : some b = some (Buffer.mk [3, 2] 1 3) := by
    rw [← h1]
    decide
  injection hb with hb2
  subst hb2
  refine ⟨h1, ?_⟩
  rw [h2]
  decide

/-- Claim C2: in every state reachable from a fresh buffer of capacity `c > 0`
by `write` and `reset` calls, `read_hint` returns `min total_written capacity`;
in particular it never exceeds the capacity reported by `size`. -/
theorem c2_read_hint_min (c : Nat) (b : Buffer) (hc : 0 < c) (hr : Reachable c b) :
    b.read_hint = min b.written c ∧ b.read_hint ≤ Buffer.size b ∧ Buffer.size b = c := by
  obtain ⟨hInv, hlen⟩ := reachable_inv c b hc hr
  have h1 := read_hint_eq_min b hInv
  rw [hlen] at h1
  refine ⟨h1, ?_, hlen⟩
  rw [h1]
  simp only [Buffer.size, hlen]
  omega

/-- Witness for C2 at the freshly constructed buffer of capacity 1. -/
theorem c2_witness : (Buffer.new [0]).read_hint = min (Buffer.new [0]).written 1 ∧
    (Buffer.new [0]).read_hint ≤ Buffer.size (Buffer.new [0]) ∧
    Buffer.size (Buffer.new [0]) = 1 :=
  c2_read_hint_min 1 (Buffer.new [0]) (by decide) ⟨[0], [], rfl, rfl⟩

/-- Claim C3 (refuted; the code contradicts its own `read_into` doc comment):
with capacity 2, after writing `[10]` then `[20, 30]` the buffer is wrapped
(`written = 3`, cursor 1, `read_hint = 2`); calling `read_into` with a
destination of length 1 < 2 does NOT panic — it returns normally with count 2,
having silently truncated the output to the single byte `[20]`. -/
theorem c3_read_into_short_dst_no_panic :
    (Buffer.new [0, 0]).write [10] = some (Buffer.mk [10, 0] 1 1, 1) ∧
    (Buffer.mk [10, 0] 1 1).write [20, 30] = some (Buffer.mk [30, 20] 1 3, 2) ∧
    (Buffer.mk [30, 20] 1 3).read_hint = 2 ∧
    (Buffer.mk [30, 20] 1 3).read_into [99] = some ([20], 2) := by
  decide

/-- Claim C4: in every state whose cursor is within bounds (all reachable
states), `read_into` on a sufficiently large destination is equivalent to
`read_to_bytes`: it writes exactly the bytes of the view into the front of the
destination and returns the view's length as its count. -/
theorem c4_read_into_equiv_read_to_bytes (b : Buffer) (dst : List Nat)
    (hwf : b.write_cursor ≤ b.data.length)
    (hdst : b.read_to_bytes.length ≤ dst.length) :
    b.read_into dst = some (b.read_to_bytes ++ dst.drop b.read_to_bytes.length,
      b.read_to_bytes.length) :=
  read_into_eq b dst hwf hdst

/-- Witness for C4 at the wrapped state `⟨[30, 20], 1, 3⟩` with a destination
of length 3. -/
theorem c4_witness : (Buffer.mk [30, 20] 1 3).read_into [7, 8, 9]
    = some ((Buffer.mk [30, 20] 1 3).read_to_bytes ++
        [7, 8, 9].drop (Buffer.mk [30, 20] 1 3).read_to_bytes.length,
      (Buffer.mk [30, 20] 1 3).read_to_bytes.length) :=
  c4_read_into_equiv_read_to_bytes (Buffer.mk [30, 20] 1 3) [7, 8, 9]
    (by decide) (by decide)

/-- Claim C5: on a fresh buffer of positive capacity, every sequence of writes
succeeds; each `write buf` returns `buf.length`, and `written` accumulates the
sum of all input lengths even when inputs exceed the capacity. -/
theorem c5_write_count_fidelity (d0 : List Nat) (chunks : List (List Nat))
    (hc : 0 < d0.length) :
    ∃ b, runWrites (Buffer.new d0) chunks = some b ∧
      b.written = (chunks.map List.length).sum ∧
      ∀ buf : List Nat, ∃ b2, b.write buf = some (b2, buf.length) := by
  obtain ⟨b, hrun, hInv, hlen, hwr, hcont⟩ :=
    runWrites_sim chunks (Buffer.new d0) (inv_new d0 hc)
  refine ⟨b, hrun, ?_, ?_⟩
  · rw [hwr]
    simp [Buffer.new]
  · intro buf
    obtain ⟨b2, hw, _⟩ := write_sim b buf hInv
    exact ⟨b2, hw⟩

/-- Witness for C5: capacity 1, one write of `[1, 2]` (longer than capacity);
the accepted count and `written` still report 2. -/
theorem c5_witness : runWrites (Buffer.new [0]) [[1, 2]] = some (Buffer.mk [2] 0 2) ∧
    (Buffer.mk [2] 0 2).written = 2 := by
  obtain ⟨b, h1, h2, h3⟩ := c5_write_count_fidelity [0] [[1, 2]] (by decide)
  have hb : some b = some (Buffer.mk [2] 0 2) := by
    rw [← h1]
    decide
  injection hb with hb2
  subst hb2
  refine ⟨h1, ?_⟩
  rw [h2]
  decide

/-- Claim C6: after any prior history, `reset()` followed by writing
`s.length ≤ capacity` bytes yields the same readable content (`read_to_bytes`,
`read_into` on every destination) and the same `read_hint` as a freshly
constructed buffer over storage of the same capacity written with the same
bytes — and that content is exactly `s`. -/
theorem c6_reset_law (b : Buffer) (d0 s : List Nat) (hb : 0 < b.data.length)
    (hd : d0.length = b.data.length) (hs : s.length ≤ b.data.length) :
    ∃ b1 b2, b.reset.write s = some (b1, s.length) ∧
      (Buffer.new d0).write s = some (b2, s.length) ∧
      b1.read_to_bytes = s ∧ b2.read_to_bytes = s ∧
      b1.read_hint = b2.read_hint ∧
      ∀ dst : List Nat, b1.read_into dst = b2.read_into dst := by
  have hd0pos : 0 < d0.length := by omega
  have h1 := write_from_zero b.data 0 s hb hs
  have h2 := write_from_zero d0 0 s hd0pos (by omega)
  have hD1len : (s ++ b.data.drop s.length).length = b.data.length := by
    simp only [List.length_append, List.length_drop]
    omega
  have hD2len : (s ++ d0.drop s.length).length = b.data.length := by
    simp only [List.length_append, List.length_drop]
    omega
  have hc3 := content_after_first_write b.data s hb hs
  have hc4 := content_after_first_write d0 s hd0pos (by omega)
  refine ⟨_, _, h1, h2, hc3, hc4, ?_, ?_⟩
  · have hwf1 : (Buffer.mk (s ++ b.data.drop s.length) (s.length % b.data.length)
        (0 + s.length)).write_cursor
        ≤ (Buffer.mk (s ++ b.data.drop s.length) (s.length % b.data.length)
            (0 + s.length)).data.length := by
      simp only [mk_cursor, mk_data, hD1len]
      exact le_of_lt (Nat.mod_lt _ hb)
    have hwf2 : (Buffer.mk (s ++ d0.drop s.length) (s.length % d0.length)
        (0 + s.length)).write_cursor
        ≤ (Buffer.mk (s ++ d0.drop s.length) (s.length % d0.length)
            (0 + s.length)).data.length := by
      simp only [mk_cursor, mk_data, hD2len, hd]
      exact le_of_lt (Nat.mod_lt _ hb)
    rw [← read_to_bytes_length _ hwf1, ← read_to_bytes_length _ hwf2, hc3, hc4]
  · intro dst
    rcases lt_or_eq_of_le hs with hlt | heq
    · rw [read_into_small _ (by
          simp only [mk_written, mk_data, hD1len]
          omega) dst,
        read_into_small _ (by
          simp only [mk_written, mk_data, hD2len]
          omega) dst]
      simp only [mk_cursor, mk_data]
      rw [hD1len, hD2len, hd, Nat.mod_eq_of_lt hlt, List.take_left, List.take_left]
    · have e1 : b.data.drop s.length = [] := by
        apply List.drop_of_length_le
        omega
      have e2 : d0.drop s.length = [] := by
        apply List.drop_of_length_le
        omega
      rw [e1, e2, hd]

/-- Witness for C6: a dirty buffer of capacity 2, fresh storage `[0, 0]`,
input `[9]`. -/
theorem c6_witness : (Buffer.mk [5, 6] 1 7).reset.write [9]
      = some (Buffer.mk [9, 6] 1 1, 1) ∧
    (Buffer.mk [9, 6] 1 1).read_to_bytes = [9] ∧
    (Buffer.mk [9, 6] 1 1).read_into [0] = (Buffer.mk [9, 0] 1 1).read_into [0] := by
  obtain ⟨b1, b2, h1, h2, h3, h4, h5, h6⟩ :=
    c6_reset_law (Buffer.mk [5, 6] 1 7) [0, 0] [9] (by decide) (by decide) (by decide)
  have e1 : some (b1, [9].length) = some (Buffer.mk [9, 6] 1 1, (1:Nat)) := by
    rw [← h1]
    decide
  have e2 : some (b2, [9].length) = some (Buffer.mk [9, 0] 1 1, (1:Nat)) := by
    rw [← h2]
    decide
  injection e1 with e1'
  injection e2 with e2'
  injection e1' with e1a e1b
  injection e2' with e2a e2b
  subst e1a
  subst e2a
  exact ⟨h1, h3, h6 [0]⟩

/-- Claim C7: `reset` zeroes the cursor and the total-written counter, leaves
the storage bytes untouched, and makes `read_hint` report 0. -/
theorem c7_reset_frame (b : Buffer) :
    b.reset.write_cursor = 0 ∧ b.reset.written = 0 ∧ b.reset.data = b.data ∧
      b.reset.read_hint = 0 := by
  refine ⟨rfl, rfl, rfl, ?_⟩
  by_cases h : b.data.length = 0
  · simp [Buffer.read_hint, Buffer.reset, h]
  · simp [Buffer.read_hint, Buffer.reset, h]

/-- Claim C8: writing to a buffer over zero-length storage always faults (the
cursor-advance `% size` divides by zero), even for the empty input. -/
theorem c8_zero_capacity_write_faults (b : Buffer) (buf : List Nat)
    (h : b.data.length = 0) : b.write buf = none := by
  simp [Buffer.write, h]

/-- Witness for C8 at the empty storage and the empty input. -/
theorem c8_witness : (Buffer.new []).write [] = none :=
  c8_zero_capacity_write_faults (Buffer.new []) [] rfl

/-- Claim C9: `copy` never faults; it returns
`min source.length destination.length`, the result keeps the destination's
length, the first `min` positions hold the source bytes, and every later
position keeps the destination's original byte. -/
theorem c9_copy_spec (dst src : List Nat) :
    (copy dst src).2 = min src.length dst.length ∧
      ((copy dst src).1).length = dst.length ∧
      (∀ i : Nat, i < min src.length dst.length →
        ((copy dst src).1).getD i 0 = src.getD i 0) ∧
      (∀ i : Nat, min src.length dst.length ≤ i →
        ((copy dst src).1).getD i 0 = dst.getD i 0) := by
  refine ⟨rfl, copy_fst_length dst src, ?_, ?_⟩
  · intro i hi
    simp only [copy]
    rw [List.getD_eq_getElem?_getD, List.getD_eq_getElem?_getD]
    have hlt : i < (src.take (min src.length dst.length)).length := by
      simp only [List.length_take]
      omega
    rw [List.getElem?_append_left hlt, List.getElem?_take, if_pos hi]
  · intro i hi
    simp only [copy]
    rw [List.getD_eq_getElem?_getD, List.getD_eq_getElem?_getD]
    have hge : (src.take (min src.length dst.length)).length ≤ i := by
      simp only [List.length_take]
      omega
    rw [List.getElem?_append_right hge, List.getElem?_drop]
    have hidx : min src.length dst.length +
        (i - (src.take (min src.length dst.length)).length) = i := by
      simp only [List.length_take]
      omega
    rw [hidx]

/-- Witness for C9 on `dst = [1, 2, 3]`, `src = [9, 8]`. -/
theorem c9_witness : (copy [1, 2, 3] [9, 8]).2 = 2 ∧
    (copy [1, 2, 3] [9, 8]).1.getD 0 0 = 9 ∧
    (copy [1, 2, 3] [9, 8]).1.getD 2 0 = 3 := by
  refine ⟨?_, ?_, ?_⟩
  · rw [(c9_copy_spec [1, 2, 3] [9, 8]).1]
    decide
  · rw [(c9_copy_spec [1, 2, 3] [9, 8]).2.2.1 0 (by decide)]
    decide
  · rw [(c9_copy_spec [1, 2, 3] [9, 8]).2.2.2 2 (by decide)]
    decide

/-- Claim C10: in every state reachable from a fresh buffer of capacity
`c > 0` by `write`/`reset` calls, the cursor stays below the capacity, and
while `total_written ≤ capacity` the cursor equals `total_written % capacity`
(so it equals `total_written` before the buffer is full and 0 exactly at the
full boundary). -/
theorem c10_cursor_invariant (c : Nat) (b : Buffer) (hc : 0 < c)
    (hr : Reachable c b) :
    b.write_cursor < c ∧ (b.written ≤ c → b.write_cursor = b.written % c) := by
  obtain ⟨hInv, hlen⟩ := reachable_inv c b hc hr
  rw [← hlen]
  exact hInv

/-- Witness for C10 at the freshly constructed buffer of capacity 1. -/
theorem c10_witness : (Buffer.new [0]).write_cursor < 1 ∧
    ((Buffer.new [0]).written ≤ 1 →
      (Buffer.new [0]).write_cursor = (Buffer.new [0]).written % 1) :=
  c10_cursor_invariant 1 (Buffer.new [0]) (by decide) ⟨[0], [], rfl, rfl⟩

end Circularbuf
